import Mathlib

/-!
Verification of the qubit-rotation script (src/basics/qubit_rotation.py).

The script builds a one-qubit simulated device, defines a two-gate circuit
RX(params[0]); RY(params[1]) returning the PauliZ expectation value, takes
gradients of it, and runs 100 steps of gradient descent with step size 0.4
from the initial parameters [0.011, 0.012].

The quantum state of the single wire is embedded as a pair of complex
amplitudes; RX and RY act by their standard 2x2 matrices and the PauliZ
expectation value is the difference of the two basis-state probabilities.
The external autodifferentiation facility (qml.grad) and the optimizer
(GradientDescentOptimizer.step) are not part of the repository; they are
modelled from the spec as the exact partial derivatives and the plain
gradient-descent update respectively.
-/

open Real

namespace QubitRotation

/-- State of the one-wire simulated device: the amplitudes of the two basis
states of the qubit. -/
structure Qubit where
  a0 : ℂ
  a1 : ℂ

/-- The device starts in the basis state zero of its single wire. -/
def ket0 : Qubit := ⟨1, 0⟩

/-- Model of qml.RX: rotation around the x axis of the Bloch sphere, acting by
the matrix with entries cos(t/2) on the diagonal and -i sin(t/2) off it. -/
noncomputable def RX (t : ℝ) (q : Qubit) : Qubit :=
  ⟨Real.cos (t / 2) * q.a0 - Complex.I * Real.sin (t / 2) * q.a1,
   -(Complex.I * Real.sin (t / 2)) * q.a0 + Real.cos (t / 2) * q.a1⟩

/-- Model of qml.RY: rotation around the y axis of the Bloch sphere, acting by
the real matrix with entries cos(t/2), -sin(t/2), sin(t/2), cos(t/2). -/
noncomputable def RY (t : ℝ) (q : Qubit) : Qubit :=
  ⟨Real.cos (t / 2) * q.a0 - Real.sin (t / 2) * q.a1,
   Real.sin (t / 2) * q.a0 + Real.cos (t / 2) * q.a1⟩

/-- Model of qml.expval(qml.PauliZ(0)): probability of measuring 0 minus
probability of measuring 1. -/
noncomputable def expvalZ (q : Qubit) : ℝ :=
  Complex.normSq q.a0 - Complex.normSq q.a1

/-- The qnode circuit(params): applies RX by params[0] and then RY by
params[1] to the single wire and returns the PauliZ expectation value.
Indexing a vector with fewer than two components fails; the failure is
modelled by none, mirroring the unhandled library exception. -/
noncomputable def circuit (params : List ℝ) : Option ℝ :=
  match params[0]?, params[1]? with
  | some p0, some p1 => some (expvalZ (RY p1 (RX p0 ket0)))
  | _, _ => none

/-- The qnode circuit2(phi1, phi2): the same two rotations with the angles
passed as two separate scalar arguments. -/
noncomputable def circuit2 (phi1 phi2 : ℝ) : ℝ :=
  expvalZ (RY phi2 (RX phi1 ket0))

/-- The cost function of the optimization: cost(x) = circuit(x). -/
noncomputable def cost (x : List ℝ) : Option ℝ :=
  circuit x

/-- Modelled from the spec: dcircuit = qml.grad(circuit, argnum=0), the
gradient of the circuit with respect to its parameter vector, computed by the
external differentiation engine; modelled as the pair of exact partial
derivatives of the circuit value at the given point. -/
noncomputable def dcircuit (params : List ℝ) : Option (ℝ × ℝ) :=
  match params[0]?, params[1]? with
  | some a, some b =>
      some (deriv (fun x => expvalZ (RY b (RX x ket0))) a,
            deriv (fun y => expvalZ (RY y (RX a ket0))) b)
  | _, _ => none

/-- Modelled from the spec: the rebinding dcircuit = qml.grad(circuit2,
argnum=[0, 1]), the gradient of circuit2 with respect to both scalar
arguments. -/
noncomputable def dcircuit2 (phi1 phi2 : ℝ) : ℝ × ℝ :=
  (deriv (fun x => circuit2 x phi2) phi1, deriv (fun y => circuit2 phi1 y) phi2)

/-- Scalar value of the cost on a length-2 parameter vector represented as a
pair, used as the state of the optimization loop. -/
noncomputable def costFn (p : ℝ × ℝ) : ℝ :=
  circuit2 p.1 p.2

/-- Modelled from the spec: gradient(cost, params) as computed by the external
differentiation engine inside the optimizer, the pair of exact partial
derivatives of the cost at the point. -/
noncomputable def gradCost (p : ℝ × ℝ) : ℝ × ℝ :=
  (deriv (fun x => costFn (x, p.2)) p.1, deriv (fun y => costFn (p.1, y)) p.2)

/-- Modelled from the spec: GradientDescentOptimizer(stepsize).step(cost, p)
replaces the parameter vector with p - stepsize * gradient(cost, p); the
optimizer carries no state besides the step size. -/
noncomputable def optStep (stepsize : ℝ) (p : ℝ × ℝ) : ℝ × ℝ :=
  (p.1 - stepsize * (gradCost p).1, p.2 - stepsize * (gradCost p).2)

/-- The initial parameters np.array([0.011, 0.012]). -/
noncomputable def init_params : ℝ × ℝ :=
  (0.011, 0.012)

/-- Parameter vector after n optimizer updates with step size 0.4. -/
noncomputable def paramsAfter (n : ℕ) : ℝ × ℝ :=
  (optStep 0.4)^[n] init_params

/-- Body of the optimization loop for index i: update the parameters, and if
the 1-based step number i+1 is a multiple of 5, append a progress record
(step number, current cost) to the output. -/
noncomputable def loopBody (st : (ℝ × ℝ) × List (ℕ × ℝ)) (i : ℕ) :
    (ℝ × ℝ) × List (ℕ × ℝ) :=
  (optStep 0.4 st.1,
   if (i + 1) % 5 = 0 then st.2 ++ [(i + 1, costFn (optStep 0.4 st.1))] else st.2)

/-- The optimization loop: for i in range(steps), starting from init_params
with an empty output trace. -/
noncomputable def loopRun (steps : ℕ) : (ℝ × ℝ) × List (ℕ × ℝ) :=
  (List.range steps).foldl loopBody (init_params, [])

/-- One printed line of the script's standard output, tagged by which print
statement produced it, carrying the printed value. -/
inductive OutLine where
  | scalar : Option ℝ → OutLine
  | gradVec : Option (ℝ × ℝ) → OutLine
  | gradPair : ℝ × ℝ → OutLine
  | initCost : Option ℝ → OutLine
  | costAfterStep : ℕ → ℝ → OutLine
  | optimizedAngles : ℝ × ℝ → OutLine

/-- The kind of a printed line, forgetting the printed value. -/
inductive Tag where
  | scalar
  | gradVec
  | gradPair
  | initCost
  | progress
  | final
  deriving DecidableEq

/-- Tag of an output line. -/
def kind : OutLine → Tag
  | .scalar _ => .scalar
  | .gradVec _ => .gradVec
  | .gradPair _ => .gradPair
  | .initCost _ => .initCost
  | .costAfterStep _ _ => .progress
  | .optimizedAngles _ => .final

/-- The script's standard output, in source order: the print of
circuit([0.54, 0.12]), the print of dcircuit([0.54, 0.12]), the print of
dcircuit(0.54, 0.12) after rebinding, the print of cost(init_params), the
progress lines of the loop, and the final optimized-angles line. -/
noncomputable def scriptOutput : List OutLine :=
  [OutLine.scalar (circuit [0.54, 0.12]),
   OutLine.gradVec (dcircuit [0.54, 0.12]),
   OutLine.gradPair (dcircuit2 0.54 0.12),
   OutLine.initCost (cost [0.011, 0.012])]
  ++ (loopRun 100).2.map (fun e => OutLine.costAfterStep e.1 e.2)
  ++ [OutLine.optimizedAngles (loopRun 100).1]

/-- Modelled from the spec: the output shape asserted by the spec, read in
order — two scalar prints, two gradient prints, one gradient-pair print, one
initial cost print, twenty progress lines and one final line. -/
def claimedOutputShape : List Tag :=
  [Tag.scalar, Tag.scalar, Tag.gradVec, Tag.gradVec, Tag.gradPair, Tag.initCost]
    ++ List.replicate 20 Tag.progress ++ [Tag.final]

/-- Possible runs of the script: it takes no input and contains no source of
nondeterminism, so the only run produces scriptOutput. -/
inductive ScriptRun : List OutLine → Prop where
  | run : ScriptRun scriptOutput

/-- Closed-form optimizer update: the gradient-descent map written with the
analytic gradient of the cost, used to analyse the trajectory. -/
noncomputable def rstep (p : ℝ × ℝ) : ℝ × ℝ :=
  (p.1 + 0.4 * (Real.sin p.1 * Real.cos p.2), p.2 + 0.4 * (Real.cos p.1 * Real.sin p.2))

/-- Scale of the fixed-point arithmetic used to enclose the trajectory:
integer n stands for the real number n / Sc. -/
def Sc : ℤ := 1000000000000000

/-- A closed interval with fixed-point endpoints at scale Sc. -/
structure Iv where
  lo : ℤ
  hi : ℤ

/-- Ceiling division for a positive divisor. -/
def cdiv (n d : ℤ) : ℤ := -((-n).ediv d)

/-- Interval addition (exact). -/
def addIv (I J : Iv) : Iv := ⟨I.lo + J.lo, I.hi + J.hi⟩

/-- Interval subtraction (exact). -/
def subIv (I J : Iv) : Iv := ⟨I.lo - J.hi, I.hi - J.lo⟩

/-- Interval doubling (exact). -/
def scl2 (I : Iv) : Iv := ⟨2 * I.lo, 2 * I.hi⟩

/-- The interval containing exactly the real number one. -/
def oneIv : Iv := ⟨Sc, Sc⟩

/-- Interval multiplication with outward rounding at scale Sc. -/
def mulIv (I J : Iv) : Iv :=
  ⟨(min (min (I.lo * J.lo) (I.lo * J.hi)) (min (I.hi * J.lo) (I.hi * J.hi))).ediv Sc,
   cdiv (max (max (I.lo * J.lo) (I.lo * J.hi)) (max (I.hi * J.lo) (I.hi * J.hi))) Sc⟩

/-- Interval division by a positive integer with outward rounding. -/
def divIv (I : Iv) (d : ℤ) : Iv := ⟨I.lo.ediv d, cdiv I.hi d⟩

/-- Widen an interval by e fixed-point units on both sides. -/
def widen (I : Iv) (e : ℤ) : Iv := ⟨I.lo - e, I.hi + e⟩

/-- Interval multiplication by the step size 0.4 = 2/5 with outward
rounding. -/
def mul04 (I : Iv) : Iv := ⟨(2 * I.lo).ediv 5, cdiv (2 * I.hi) 5⟩

/-- Membership of a real number in a fixed-point interval. -/
def memIv (x : ℝ) (I : Iv) : Prop :=
  (I.lo : ℝ) ≤ x * (Sc : ℝ) ∧ x * (Sc : ℝ) ≤ (I.hi : ℝ)

/-- Taylor enclosure of the sine on a small nonnegative interval (argument at
most 0.0008): x - x^3/6 with remainder 25 fixed-point units. -/
def sinT (T : Iv) : Iv := widen (subIv T (divIv (mulIv (mulIv T T) T) 6)) 25

/-- Taylor enclosure of the cosine on a small nonnegative interval: 1 - x^2/2
with remainder 25 fixed-point units. -/
def cosT (T : Iv) : Iv := widen (subIv oneIv (divIv (mulIv T T) 2)) 25

/-- One double-angle step on a (sine, cosine) pair of enclosures. -/
def scD (p : Iv × Iv) : Iv × Iv :=
  (scl2 (mulIv p.1 p.2), subIv oneIv (scl2 (mulIv p.1 p.1)))

/-- Enclosures of sine and cosine at the point q / Sc (with 0 ≤ q ≤ 3.2 Sc):
Taylor enclosures at the quarter-of-a-quarter angle q / 4096, then twelve
double-angle steps. -/
def sinCosP (q : ℤ) : Iv × Iv :=
  scD^[12] (sinT ⟨q.ediv 4096, q.ediv 4096 + 1⟩, cosT ⟨q.ediv 4096, q.ediv 4096 + 1⟩)

/-- Sine enclosure at a fixed-point argument. -/
def psin (q : ℤ) : Iv := (sinCosP q).1

/-- Cosine enclosure at a fixed-point argument. -/
def pcos (q : ℤ) : Iv := (sinCosP q).2

/-- Cosine of an interval inside the interval from zero to 3.1415, where the
cosine is decreasing. -/
def cosIv (X : Iv) : Iv := ⟨(pcos X.hi).lo, (pcos X.lo).hi⟩

/-- Sine of an interval inside the interval from zero to 3.1415: the minimum
is at an endpoint by concavity; the maximum is at an endpoint if the interval
lies on one side of pi/2 (decided against rational bounds on pi/2) and is at
most one always. -/
def sinIv (X : Iv) : Iv :=
  ⟨min (psin X.lo).lo (psin X.hi).lo,
   if X.hi ≤ 1570796000000000 then (psin X.hi).hi
   else if 1570796500000000 ≤ X.lo then (psin X.lo).hi
   else Sc⟩

/-- Interval version of the gradient-descent update rstep. -/
def stepIv (P : Iv × Iv) : Iv × Iv :=
  (addIv P.1 (mul04 (mulIv (sinIv P.1) (cosIv P.2))),
   addIv P.2 (mul04 (mulIv (cosIv P.1) (sinIv P.2))))

/-- Validity of an interval state: both components inside the interval from
zero to 3.1415, the range on which the enclosures are sound. -/
def okIv (P : Iv × Iv) : Bool :=
  decide (0 ≤ P.1.lo) && decide (P.1.hi ≤ 3141500000000000) &&
    decide (0 ≤ P.2.lo) && decide (P.2.hi ≤ 3141500000000000)

/-- Validity of the interval state along n interval steps. -/
def okSteps : ℕ → Iv × Iv → Bool
  | 0, _ => true
  | n + 1, P => okIv P && okSteps n (stepIv P)

/-- The initial parameters 0.011 and 0.012 as exact fixed-point intervals. -/
def initIv : Iv × Iv :=
  (⟨11000000000000, 11000000000000⟩, ⟨12000000000000, 12000000000000⟩)

/-- Numeric check on the interval state after 30 steps: the first angle lies
in (0, 0.025] and the second in [3.11, 3.1415]. -/
def endCheck : Bool :=
  let P := stepIv^[30] initIv
  decide (1 ≤ P.1.lo) && decide (P.1.hi ≤ 25000000000000) &&
    decide (3110000000000000 ≤ P.2.lo) && decide (P.2.hi ≤ 3141500000000000)

/-- Invariant of the optimization trajectory: the first angle stays in
(0, pi/2) and below the second angle, which stays below pi. -/
def LoopInv (p : ℝ × ℝ) : Prop :=
  0 < p.1 ∧ p.1 < π / 2 ∧ p.1 < p.2 ∧ p.2 < π

/-- Executing the circuit qnode when the device's wire is currently in state
d: the simulator re-prepares the basis state zero on every execution, so the
result never depends on d; on an indexing failure the device state is left
unchanged. -/
noncomputable def runCircuitOn (d : Qubit) (params : List ℝ) : Option ℝ × Qubit :=
  match params[0]?, params[1]? with
  | some p0, some p1 => (some (expvalZ (RY p1 (RX p0 ket0))), RY p1 (RX p0 ket0))
  | _, _ => (none, d)

end QubitRotation

namespace QubitRotation

/-- Half-angle identity in the form used to evaluate the circuit. -/
lemma cos_eq_half_angle (x : ℝ) :
    Real.cos x = Real.cos (x / 2) ^ 2 - Real.sin (x / 2) ^ 2 := by
  have h := Real.cos_two_mul' (x / 2)
  rw [show 2 * (x / 2) = x by ring] at h
  exact h

/-- Evaluating the two-rotation circuit on the initial state gives the
closed-form expectation value cos(a) * cos(b). -/
lemma expvalZ_RY_RX (a b : ℝ) :
    expvalZ (RY b (RX a ket0)) = Real.cos a * Real.cos b := by
  have ha := cos_eq_half_angle a
  have hb := cos_eq_half_angle b
  simp only [expvalZ, RY, RX, ket0, Complex.normSq_apply, Complex.add_re, Complex.add_im,
    Complex.sub_re, Complex.sub_im, Complex.mul_re, Complex.mul_im, Complex.neg_re,
    Complex.neg_im, Complex.I_re, Complex.I_im, Complex.ofReal_re, Complex.ofReal_im,
    Complex.one_re, Complex.one_im, Complex.zero_re, Complex.zero_im]
  rw [ha, hb]
  ring

/-- C1: for every parameter vector of length 2, circuit(params) applies RX by
params[0] then RY by params[1] and returns the PauliZ expectation value,
which equals cos(params[0]) * cos(params[1]). -/
theorem circuit_closed_form (params : List ℝ) (h : params.length = 2) :
    circuit params =
      some (Real.cos (params.get ⟨0, by omega⟩) * Real.cos (params.get ⟨1, by omega⟩)) := by
  match params, h with
  | [a, b], _ =>
    show circuit [a, b] = some (Real.cos a * Real.cos b)
    simp only [circuit, List.getElem?_eq_getElem, List.length_cons, List.length_nil]
    norm_num [expvalZ_RY_RX]

/-- Witness for C1 at the concrete input [0.54, 0.12] used by the script. -/
theorem circuit_closed_form_witness :
    ([0.54, 0.12] : List ℝ).length = 2 ∧
      circuit [0.54, 0.12] = some (Real.cos 0.54 * Real.cos 0.12) := by
  refine ⟨rfl, ?_⟩
  exact circuit_closed_form [0.54, 0.12] rfl

/-- C8: the two-argument circuit computes the same value as the
vector-argument circuit: circuit([phi1, phi2]) succeeds with exactly
circuit2(phi1, phi2). -/
theorem circuit2_eq_circuit (phi1 phi2 : ℝ) :
    circuit [phi1, phi2] = some (circuit2 phi1 phi2) := by
  rfl

/-- Partial derivative of the circuit value in its first angle. -/
lemma deriv_circuit_fst (a b : ℝ) :
    deriv (fun x => expvalZ (RY b (RX x ket0))) a = -(Real.sin a * Real.cos b) := by
  have hf : (fun x => expvalZ (RY b (RX x ket0))) = fun x => Real.cos x * Real.cos b :=
    funext fun x => expvalZ_RY_RX x b
  rw [hf, ((Real.hasDerivAt_cos a).mul_const (Real.cos b)).deriv, neg_mul]

/-- Partial derivative of the circuit value in its second angle. -/
lemma deriv_circuit_snd (a b : ℝ) :
    deriv (fun y => expvalZ (RY y (RX a ket0))) b = -(Real.cos a * Real.sin b) := by
  have hf : (fun y => expvalZ (RY y (RX a ket0))) = fun y => Real.cos a * Real.cos y :=
    funext fun y => expvalZ_RY_RX a y
  rw [hf, ((Real.hasDerivAt_cos b).const_mul (Real.cos a)).deriv, mul_neg]

/-- The gradient of the cost at any point, in closed form. -/
lemma gradCost_eq (p : ℝ × ℝ) :
    gradCost p = (-(Real.sin p.1 * Real.cos p.2), -(Real.cos p.1 * Real.sin p.2)) := by
  unfold gradCost costFn circuit2
  rw [deriv_circuit_fst, deriv_circuit_snd]

/-- Unfolding one optimizer update. -/
lemma paramsAfter_succ (n : ℕ) : paramsAfter (n + 1) = optStep 0.4 (paramsAfter n) := by
  rw [paramsAfter, paramsAfter, Function.iterate_succ_apply']

/-- C2: the gradient of circuit at [0.54, 0.12], and the gradient of circuit2
at (0.54, 0.12), both equal the analytic gradient of cos(a) * cos(b) there,
namely (-sin(0.54) cos(0.12), -cos(0.54) sin(0.12)). -/
theorem dcircuit_at_054_012 :
    dcircuit [0.54, 0.12] =
        some (-(Real.sin 0.54 * Real.cos 0.12), -(Real.cos 0.54 * Real.sin 0.12)) ∧
      dcircuit2 0.54 0.12 =
        (-(Real.sin 0.54 * Real.cos 0.12), -(Real.cos 0.54 * Real.sin 0.12)) := by
  constructor
  · show some (deriv (fun x => expvalZ (RY 0.12 (RX x ket0))) 0.54,
        deriv (fun y => expvalZ (RY y (RX 0.54 ket0))) 0.12) = _
    rw [deriv_circuit_fst, deriv_circuit_snd]
  · show (deriv (fun x => circuit2 x 0.12) 0.54, deriv (fun y => circuit2 0.54 y) 0.12) = _
    unfold circuit2
    rw [deriv_circuit_fst, deriv_circuit_snd]

/-- C4: each loop iteration replaces the parameters by
params - 0.4 * gradient(cost, params), where the gradient is the vector of
partial derivatives of the cost and cost coincides with circuit; no state
other than the parameter pair is carried between iterations. -/
theorem step_is_gradient_descent (n : ℕ) :
    (∀ x : List ℝ, cost x = circuit x) ∧
      paramsAfter (n + 1) = optStep 0.4 (paramsAfter n) ∧
      optStep 0.4 (paramsAfter n) =
        ((paramsAfter n).1 -
            0.4 * deriv (fun x => costFn (x, (paramsAfter n).2)) (paramsAfter n).1,
         (paramsAfter n).2 -
            0.4 * deriv (fun y => costFn ((paramsAfter n).1, y)) (paramsAfter n).2) := by
  exact ⟨fun _ => rfl, paramsAfter_succ n, rfl⟩

/-- C9: a parameter vector with fewer than two components makes circuit (and
hence cost) fail; the failure propagates as none through the Option model,
mirroring the unhandled library exception that terminates the script. -/
theorem malformed_input_fails (p : List ℝ) (h : p.length < 2) :
    circuit p = none ∧ cost p = none := by
  match p, h with
  | [], _ => exact ⟨rfl, rfl⟩
  | [a], _ => exact ⟨rfl, rfl⟩

/-- Witness for C9 at the concrete malformed input [0.54]. -/
theorem malformed_input_fails_witness :
    ([0.54] : List ℝ).length < 2 ∧ circuit [0.54] = none ∧ cost [0.54] = none :=
  ⟨by norm_num, (malformed_input_fails [0.54] (by norm_num)).1,
    (malformed_input_fails [0.54] (by norm_num)).2⟩

/-- C10: circuit reads only the first two components of its parameter vector:
two vectors of length at least 2 agreeing on components 0 and 1 give the same
result, and the evaluation succeeds. -/
theorem extra_components_ignored (p q : List ℝ) (hp : 2 ≤ p.length) (hq : 2 ≤ q.length)
    (h0 : p[0]? = q[0]?) (h1 : p[1]? = q[1]?) :
    circuit p = circuit q ∧ (circuit p).isSome = true := by
  match p, hp, q, hq with
  | a :: b :: ps, _, c :: d :: qs, _ =>
    simp only [List.getElem?_cons_zero, List.getElem?_cons_succ,
      Option.some.injEq] at h0 h1
    subst h0
    subst h1
    constructor
    · simp [circuit]
    · simp [circuit]

/-- Witness for C10: a third trailing component does not change the result. -/
theorem extra_components_ignored_witness :
    circuit [(0.3 : ℝ), 0.7, 5] = circuit [(0.3 : ℝ), 0.7] ∧
      (circuit [(0.3 : ℝ), 0.7, 5]).isSome = true :=
  extra_components_ignored [(0.3 : ℝ), 0.7, 5] [(0.3 : ℝ), 0.7]
    (by norm_num) (by norm_num) rfl rfl

/-- Unfolding one iteration of the loop. -/
lemma loopRun_succ (n : ℕ) : loopRun (n + 1) = loopBody (loopRun n) n := by
  unfold loopRun
  rw [List.range_succ, List.foldl_append]
  rfl

/-- The loop's parameter state after n iterations is the n-th iterate of the
optimizer update. -/
lemma loopRun_fst (n : ℕ) : (loopRun n).1 = paramsAfter n := by
  induction n with
  | zero => rfl
  | succ n ih =>
    rw [loopRun_succ]
    show optStep 0.4 (loopRun n).1 = _
    rw [ih, paramsAfter_succ]

/-- The loop's output trace lists, in order, the multiples of 5 among the
1-based step numbers together with the cost after that step. -/
lemma loopRun_trace (n : ℕ) :
    (loopRun n).2 = (List.range n).filterMap
      (fun i => if (i + 1) % 5 = 0 then
        some (i + 1, costFn (paramsAfter (i + 1))) else none) := by
  induction n with
  | zero => rfl
  | succ n ih =>
    rw [loopRun_succ, List.range_succ, List.filterMap_append]
    show (if (n + 1) % 5 = 0 then
        (loopRun n).2 ++ [(n + 1, costFn (optStep 0.4 (loopRun n).1))]
      else (loopRun n).2) = _
    rw [loopRun_fst, ih, ← paramsAfter_succ]
    by_cases h : (n + 1) % 5 = 0
    · simp [h]
    · simp [h]

/-- The step numbers printed by the loop. -/
lemma loopRun_trace_fst (n : ℕ) :
    (loopRun n).2.map Prod.fst = (List.range n).filterMap
      (fun i => if (i + 1) % 5 = 0 then some (i + 1) else none) := by
  rw [loopRun_trace, List.map_filterMap]
  congr 1
  funext i
  by_cases h : (i + 1) % 5 = 0
  · simp [h]
  · simp [h]

/-- For 100 iterations the printed step numbers are exactly the twenty
multiples of 5 up to 100. -/
lemma loopRun_100_steps :
    (loopRun 100).2.map Prod.fst =
      [5, 10, 15, 20, 25, 30, 35, 40, 45, 50,
       55, 60, 65, 70, 75, 80, 85, 90, 95, 100] := by
  rw [loopRun_trace_fst]
  decide

/-- The loop prints exactly 20 progress lines. -/
lemma loopRun_100_len : (loopRun 100).2.length = 20 := by
  have h := congrArg List.length loopRun_100_steps
  simpa using h

/-- C3: over 100 iterations the loop prints a progress line exactly at the
1-based step numbers that are multiples of 5 — twenty lines in all — and its
final state is the result of exactly 100 optimizer updates, with no early
exit. -/
theorem loop_prints_and_updates :
    (loopRun 100).2.map Prod.fst =
        [5, 10, 15, 20, 25, 30, 35, 40, 45, 50,
         55, 60, 65, 70, 75, 80, 85, 90, 95, 100] ∧
      (loopRun 100).2.length = 20 ∧
      (loopRun 100).1 = paramsAfter 100 :=
  ⟨loopRun_100_steps, loopRun_100_len, loopRun_fst 100⟩

/-- The kinds of the script's output lines, in order. -/
lemma scriptOutput_kinds :
    scriptOutput.map kind =
      [Tag.scalar, Tag.gradVec, Tag.gradPair, Tag.initCost]
        ++ List.replicate 20 Tag.progress ++ [Tag.final] := by
  unfold scriptOutput
  rw [List.map_append, List.map_append, List.map_map]
  have h2 : ((loopRun 100).2.map (kind ∘ fun e => OutLine.costAfterStep e.1 e.2)) =
      List.replicate 20 Tag.progress := by
    have hk : (kind ∘ fun e : ℕ × ℝ => OutLine.costAfterStep e.1 e.2) =
        fun _ => Tag.progress := rfl
    rw [hk, List.map_const', loopRun_100_len]
  rw [h2]
  rfl

/-- C6 fails as stated: the output does not consist of two scalar prints, two
gradient prints, one gradient-pair print, one initial cost print, twenty
progress lines and one final line — that would be 27 lines, while the script
prints 25 (one scalar print and one gradient print, not two of each). -/
theorem output_shape_counterexample : scriptOutput.map kind ≠ claimedOutputShape := by
  intro h
  have h1 := congrArg List.length h
  rw [scriptOutput_kinds] at h1
  simp [claimedOutputShape] at h1

/-- C6 amended: the script's standard output consists, in order, of: one
scalar print, one gradient print, one gradient-pair print, one initial cost
print, twenty progress lines, and one final optimized-angles line; the model
performs no input or output besides this trace. -/
theorem output_shape :
    scriptOutput.map kind =
      [Tag.scalar, Tag.gradVec, Tag.gradPair, Tag.initCost]
        ++ List.replicate 20 Tag.progress ++ [Tag.final] :=
  scriptOutput_kinds

/-- C7: the program is deterministic — a circuit execution returns exactly
circuit(params) no matter what state a previous call left the device in, and
any two runs of the script produce the same output trace. -/
theorem deterministic (d1 d2 : Qubit) (p : List ℝ) (t1 t2 : List OutLine)
    (h1 : ScriptRun t1) (h2 : ScriptRun t2) :
    (runCircuitOn d1 p).1 = circuit p ∧
      (runCircuitOn d1 p).1 = (runCircuitOn d2 p).1 ∧ t1 = t2 := by
  refine ⟨?_, ?_, ?_⟩
  · cases hp0 : p[0]? <;> cases hp1 : p[1]? <;> simp [runCircuitOn, circuit, hp0, hp1]
  · cases hp0 : p[0]? <;> cases hp1 : p[1]? <;> simp [runCircuitOn, hp0, hp1]
  · cases h1
    cases h2
    rfl

/-- The optimizer update written out with the closed-form gradient. -/
lemma optStep_eq (p : ℝ × ℝ) :
    optStep 0.4 p = (p.1 + 0.4 * (Real.sin p.1 * Real.cos p.2),
                     p.2 + 0.4 * (Real.cos p.1 * Real.sin p.2)) := by
  simp only [optStep, gradCost_eq, Prod.mk.injEq]
  constructor <;> ring

/-- The sine function is below the identity on the nonnegative reals. -/
lemma sin_le_self (x : ℝ) (hx : 0 ≤ x) : Real.sin x ≤ x := by
  rcases eq_or_lt_of_le hx with h | h
  · rw [← h]
    simp
  · exact (Real.sin_lt h).le

/-- The cost as a product of cosines. -/
lemma costFn_eq (q : ℝ × ℝ) : costFn q = Real.cos q.1 * Real.cos q.2 :=
  expvalZ_RY_RX q.1 q.2

/-- One optimizer update preserves the trajectory invariant. -/
lemma step_inv (a b : ℝ) (ha0 : 0 < a) (ha2 : a < π / 2) (hab : a < b) (hb : b < π) :
    0 < a + 0.4 * (Real.sin a * Real.cos b) ∧
      a + 0.4 * (Real.sin a * Real.cos b) < π / 2 ∧
      a + 0.4 * (Real.sin a * Real.cos b) < b + 0.4 * (Real.cos a * Real.sin b) ∧
      b + 0.4 * (Real.cos a * Real.sin b) < π := by
  have hpi := Real.pi_pos
  have hsa : 0 < Real.sin a := Real.sin_pos_of_pos_of_lt_pi ha0 (by linarith)
  have hsale : Real.sin a ≤ a := sin_le_self a ha0.le
  have hsb : 0 < Real.sin b := Real.sin_pos_of_pos_of_lt_pi (by linarith) hb
  have hca : 0 < Real.cos a := Real.cos_pos_of_mem_Ioo ⟨by linarith, ha2⟩
  refine ⟨?_, ?_, ?_, ?_⟩
  · have h1 : -Real.sin a ≤ Real.sin a * Real.cos b := by
      nlinarith [Real.neg_one_le_cos b]
    linarith
  · rcases le_or_lt (π / 2) b with h2 | h2
    · have hcb : Real.cos b ≤ 0 :=
        Real.cos_nonpos_of_pi_div_two_le_of_le h2 (by linarith)
      nlinarith
    · have hcab : Real.cos b < Real.cos a :=
        Real.cos_lt_cos_of_nonneg_of_le_pi ha0.le (by linarith) hab
      have h1 : Real.sin a * Real.cos b ≤ Real.sin a * Real.cos a :=
        mul_le_mul_of_nonneg_left hcab.le hsa.le
      have h2m : Real.sin (2 * a) = 2 * (Real.sin a * Real.cos a) := by
        rw [Real.sin_two_mul]
        ring
      have h3 : Real.sin (2 * a) ≤ π - 2 * a := by
        rw [← Real.sin_pi_sub]
        exact sin_le_self _ (by linarith)
      linarith
  · have h := Real.sin_sub b a
    have hpos : 0 < Real.sin (b - a) :=
      Real.sin_pos_of_pos_of_lt_pi (by linarith) (by linarith)
    have hlt : Real.sin a * Real.cos b < Real.cos a * Real.sin b := by
      nlinarith
    linarith
  · have h1 : Real.cos a * Real.sin b ≤ Real.sin b := by
      nlinarith [Real.cos_le_one a]
    have h2 : Real.sin b ≤ π - b := by
      rw [← Real.sin_pi_sub]
      exact sin_le_self _ (by linarith)
    linarith

/-- One optimizer update strictly decreases the cost on the invariant
region. -/
lemma cost_step_lt (a b : ℝ) (ha0 : 0 < a) (ha2 : a < π / 2) (hab : a < b) (hb : b < π) :
    Real.cos (a + 0.4 * (Real.sin a * Real.cos b)) *
        Real.cos (b + 0.4 * (Real.cos a * Real.sin b)) <
      Real.cos a * Real.cos b := by
  obtain ⟨hA0, hA2, hAB, hBpi⟩ := step_inv a b ha0 ha2 hab hb
  have hpi := Real.pi_pos
  have hsa : 0 < Real.sin a := Real.sin_pos_of_pos_of_lt_pi ha0 (by linarith)
  have hsb : 0 < Real.sin b := Real.sin_pos_of_pos_of_lt_pi (by linarith) hb
  have hca : 0 < Real.cos a := Real.cos_pos_of_mem_Ioo ⟨by linarith, ha2⟩
  have hbb : b < b + 0.4 * (Real.cos a * Real.sin b) := by nlinarith
  have hca' : 0 < Real.cos (a + 0.4 * (Real.sin a * Real.cos b)) :=
    Real.cos_pos_of_mem_Ioo ⟨by linarith, hA2⟩
  rcases le_or_lt (b + 0.4 * (Real.cos a * Real.sin b)) (π / 2) with hc | hc
  · -- both angles stay in the first quadrant and both strictly increase
    have hb2 : b < π / 2 := lt_of_lt_of_le hbb hc
    have hcb : 0 < Real.cos b := Real.cos_pos_of_mem_Ioo ⟨by linarith, hb2⟩
    have haa : a < a + 0.4 * (Real.sin a * Real.cos b) := by nlinarith
    have h1 : Real.cos (a + 0.4 * (Real.sin a * Real.cos b)) < Real.cos a :=
      Real.cos_lt_cos_of_nonneg_of_le_pi ha0.le (by linarith) haa
    have h2 : Real.cos (b + 0.4 * (Real.cos a * Real.sin b)) < Real.cos b :=
      Real.cos_lt_cos_of_nonneg_of_le_pi (by linarith) (by linarith) hbb
    calc Real.cos (a + 0.4 * (Real.sin a * Real.cos b)) *
          Real.cos (b + 0.4 * (Real.cos a * Real.sin b)) <
        Real.cos (a + 0.4 * (Real.sin a * Real.cos b)) * Real.cos b :=
          mul_lt_mul_of_pos_left h2 hca'
      _ < Real.cos a * Real.cos b := mul_lt_mul_of_pos_right h1 hcb
  · rcases le_or_lt (π / 2) b with hb2 | hb2
    · -- the second angle has passed pi/2: the first decreases, cos b is nonpositive
      have hcb : Real.cos b ≤ 0 :=
        Real.cos_nonpos_of_pi_div_two_le_of_le hb2 (by linarith)
      have haa : a + 0.4 * (Real.sin a * Real.cos b) ≤ a := by nlinarith
      have h1 : Real.cos a ≤ Real.cos (a + 0.4 * (Real.sin a * Real.cos b)) :=
        Real.cos_le_cos_of_nonneg_of_le_pi hA0.le (by linarith) haa
      have h2 : Real.cos (b + 0.4 * (Real.cos a * Real.sin b)) < Real.cos b :=
        Real.cos_lt_cos_of_nonneg_of_le_pi (by linarith) hBpi.le hbb
      calc Real.cos (a + 0.4 * (Real.sin a * Real.cos b)) *
            Real.cos (b + 0.4 * (Real.cos a * Real.sin b)) <
          Real.cos (a + 0.4 * (Real.sin a * Real.cos b)) * Real.cos b :=
            mul_lt_mul_of_pos_left h2 hca'
        _ ≤ Real.cos a * Real.cos b := mul_le_mul_of_nonpos_right h1 hcb
    · -- the second angle crosses pi/2 at this step: the cost changes sign
      have hcb : 0 < Real.cos b := Real.cos_pos_of_mem_Ioo ⟨by linarith, hb2⟩
      have hcb' : Real.cos (b + 0.4 * (Real.cos a * Real.sin b)) ≤ 0 :=
        Real.cos_nonpos_of_pi_div_two_le_of_le hc.le (by linarith)
      have hle : Real.cos (a + 0.4 * (Real.sin a * Real.cos b)) *
          Real.cos (b + 0.4 * (Real.cos a * Real.sin b)) ≤ 0 :=
        mul_nonpos_of_nonneg_of_nonpos hca'.le hcb'
      have hgt : 0 < Real.cos a * Real.cos b := mul_pos hca hcb
      linarith

/-- The trajectory invariant holds along the whole run. -/
lemma loopInv_all (n : ℕ) : LoopInv (paramsAfter n) := by
  induction n with
  | zero =>
    have h3 := Real.pi_gt_three
    refine ⟨by norm_num [paramsAfter, init_params], ?_, ?_, ?_⟩
    · show (0.011 : ℝ) < π / 2
      linarith
    · norm_num [paramsAfter, init_params]
    · show (0.012 : ℝ) < π
      linarith
  | succ n ih =>
    obtain ⟨h1, h2, h3, h4⟩ := ih
    rw [paramsAfter_succ, optStep_eq]
    obtain ⟨g1, g2, g3, g4⟩ :=
      step_inv (paramsAfter n).1 (paramsAfter n).2 h1 h2 h3 h4
    exact ⟨g1, g2, g3, g4⟩

/-- The cost strictly decreases at every step of the run. -/
lemma cost_strict_decrease (n : ℕ) :
    costFn (paramsAfter (n + 1)) < costFn (paramsAfter n) := by
  obtain ⟨h1, h2, h3, h4⟩ := loopInv_all n
  rw [paramsAfter_succ, optStep_eq, costFn_eq, costFn_eq]
  exact cost_step_lt (paramsAfter n).1 (paramsAfter n).2 h1 h2 h3 h4

/-- After the 100 steps the cost is strictly below the initial cost. -/
lemma cost_100_lt : costFn (paramsAfter 100) < costFn init_params := by
  have h : StrictAnti (fun n => costFn (paramsAfter n)) :=
    @strictAnti_nat_of_succ_lt ℝ _ (fun n => costFn (paramsAfter n)) cost_strict_decrease
  have h2 := h (show (0 : ℕ) < 100 by norm_num)
  simpa [paramsAfter] using h2


/-- The scale is positive as a real number. -/
lemma Sc_pos : (0 : ℝ) < (Sc : ℝ) := by norm_num [Sc]

/-- The scale is positive as an integer. -/
lemma Sc_posZ : (0 : ℤ) < Sc := by norm_num [Sc]

/-- Floor-division bounds of Euclidean division by a positive divisor, over
the reals. -/
lemma ediv_bounds (n d : ℤ) (hd : 0 < d) :
    ((n.ediv d : ℤ) : ℝ) * (d : ℝ) ≤ (n : ℝ) ∧
      (n : ℝ) < ((n.ediv d : ℤ) : ℝ) * (d : ℝ) + (d : ℝ) := by
  have key := Int.ediv_add_emod n d
  have h1 := Int.emod_nonneg n (ne_of_gt hd)
  have h2 := Int.emod_lt_of_pos n hd
  have keyR : (d : ℝ) * ((n.ediv d : ℤ) : ℝ) + ((n.emod d : ℤ) : ℝ) = (n : ℝ) := by
    exact_mod_cast key
  have h1R : (0 : ℝ) ≤ ((n.emod d : ℤ) : ℝ) := by exact_mod_cast h1
  have h2R : ((n.emod d : ℤ) : ℝ) < (d : ℝ) := by exact_mod_cast h2
  constructor <;> nlinarith [keyR, h1R, h2R]

/-- Ceiling-division bounds, over the reals. -/
lemma cdiv_bounds (n d : ℤ) (hd : 0 < d) :
    (n : ℝ) ≤ ((cdiv n d : ℤ) : ℝ) * (d : ℝ) ∧
      ((cdiv n d : ℤ) : ℝ) * (d : ℝ) < (n : ℝ) + (d : ℝ) := by
  obtain ⟨ha, hb⟩ := ediv_bounds (-n) d hd
  have hc : ((cdiv n d : ℤ) : ℝ) = -(((-n).ediv d : ℤ) : ℝ) := by
    unfold cdiv
    push_cast
    ring
  rw [hc]
  push_cast at ha hb
  constructor <;> nlinarith [ha, hb]

/-- An upper endpoint bound transfers to the enclosed real number. -/
lemma memIv_le {x : ℝ} {I : Iv} (h : memIv x I) {c : ℤ} (hc : I.hi ≤ c) :
    x ≤ (c : ℝ) / (Sc : ℝ) := by
  rw [le_div_iff₀ Sc_pos]
  have hcR : ((I.hi : ℤ) : ℝ) ≤ (c : ℝ) := by exact_mod_cast hc
  linarith [h.2]

/-- A lower endpoint bound transfers to the enclosed real number. -/
lemma le_memIv {x : ℝ} {I : Iv} (h : memIv x I) {c : ℤ} (hc : c ≤ I.lo) :
    (c : ℝ) / (Sc : ℝ) ≤ x := by
  rw [div_le_iff₀ Sc_pos]
  have hcR : (c : ℝ) ≤ ((I.lo : ℤ) : ℝ) := by exact_mod_cast hc
  linarith [h.1]

/-- Soundness of interval addition. -/
lemma mem_addIv {x y : ℝ} {I J : Iv} (hx : memIv x I) (hy : memIv y J) :
    memIv (x + y) (addIv I J) := by
  obtain ⟨h1, h2⟩ := hx
  obtain ⟨h3, h4⟩ := hy
  constructor
  · show ((I.lo + J.lo : ℤ) : ℝ) ≤ (x + y) * (Sc : ℝ)
    push_cast
    nlinarith
  · show (x + y) * (Sc : ℝ) ≤ ((I.hi + J.hi : ℤ) : ℝ)
    push_cast
    nlinarith

/-- Soundness of interval subtraction. -/
lemma mem_subIv {x y : ℝ} {I J : Iv} (hx : memIv x I) (hy : memIv y J) :
    memIv (x - y) (subIv I J) := by
  obtain ⟨h1, h2⟩ := hx
  obtain ⟨h3, h4⟩ := hy
  constructor
  · show ((I.lo - J.hi : ℤ) : ℝ) ≤ (x - y) * (Sc : ℝ)
    push_cast
    nlinarith
  · show (x - y) * (Sc : ℝ) ≤ ((I.hi - J.lo : ℤ) : ℝ)
    push_cast
    nlinarith

/-- Soundness of interval doubling. -/
lemma mem_scl2 {y : ℝ} {I : Iv} (hy : memIv y I) : memIv (2 * y) (scl2 I) := by
  obtain ⟨h1, h2⟩ := hy
  constructor
  · show ((2 * I.lo : ℤ) : ℝ) ≤ 2 * y * (Sc : ℝ)
    push_cast
    nlinarith
  · show 2 * y * (Sc : ℝ) ≤ ((2 * I.hi : ℤ) : ℝ)
    push_cast
    nlinarith

/-- The interval oneIv contains one. -/
lemma mem_oneIv : memIv 1 oneIv := by
  constructor <;> norm_num [oneIv, Sc, memIv]

/-- A product of reals is bounded by the four products of the interval
endpoints. -/
lemma mul_bounds {x y la ua lb ub : ℝ} (h1 : la ≤ x) (h2 : x ≤ ua) (h3 : lb ≤ y)
    (h4 : y ≤ ub) :
    min (min (la * lb) (la * ub)) (min (ua * lb) (ua * ub)) ≤ x * y ∧
      x * y ≤ max (max (la * lb) (la * ub)) (max (ua * lb) (ua * ub)) := by
  constructor
  · rcases le_or_lt 0 y with hy | hy
    · have hxy : la * y ≤ x * y := mul_le_mul_of_nonneg_right h1 hy
      rcases le_or_lt 0 la with hla | hla
      · have h5 : la * lb ≤ la * y := mul_le_mul_of_nonneg_left h3 hla
        have h6 := le_trans (min_le_left (min (la * lb) (la * ub)) (min (ua * lb) (ua * ub)))
          (min_le_left (la * lb) (la * ub))
        linarith
      · have h5 : la * ub ≤ la * y := mul_le_mul_of_nonpos_left h4 hla.le
        have h6 := le_trans (min_le_left (min (la * lb) (la * ub)) (min (ua * lb) (ua * ub)))
          (min_le_right (la * lb) (la * ub))
        linarith
    · have hxy : ua * y ≤ x * y := mul_le_mul_of_nonpos_right h2 hy.le
      rcases le_or_lt 0 ua with hua | hua
      · have h5 : ua * lb ≤ ua * y := mul_le_mul_of_nonneg_left h3 hua
        have h6 := le_trans (min_le_right (min (la * lb) (la * ub)) (min (ua * lb) (ua * ub)))
          (min_le_left (ua * lb) (ua * ub))
        linarith
      · have h5 : ua * ub ≤ ua * y := mul_le_mul_of_nonpos_left h4 hua.le
        have h6 := le_trans (min_le_right (min (la * lb) (la * ub)) (min (ua * lb) (ua * ub)))
          (min_le_right (ua * lb) (ua * ub))
        linarith
  · rcases le_or_lt 0 y with hy | hy
    · have hxy : x * y ≤ ua * y := mul_le_mul_of_nonneg_right h2 hy
      rcases le_or_lt 0 ua with hua | hua
      · have h5 : ua * y ≤ ua * ub := mul_le_mul_of_nonneg_left h4 hua
        have h6 := le_trans (le_max_right (ua * lb) (ua * ub))
          (le_max_right (max (la * lb) (la * ub)) (max (ua * lb) (ua * ub)))
        linarith
      · have h5 : ua * y ≤ ua * lb := mul_le_mul_of_nonpos_left h3 hua.le
        have h6 := le_trans (le_max_left (ua * lb) (ua * ub))
          (le_max_right (max (la * lb) (la * ub)) (max (ua * lb) (ua * ub)))
        linarith
    · have hxy : x * y ≤ la * y := mul_le_mul_of_nonpos_right h1 hy.le
      rcases le_or_lt 0 la with hla | hla
      · have h5 : la * y ≤ la * ub := mul_le_mul_of_nonneg_left h4 hla
        have h6 := le_trans (le_max_right (la * lb) (la * ub))
          (le_max_left (max (la * lb) (la * ub)) (max (ua * lb) (ua * ub)))
        linarith
      · have h5 : la * y ≤ la * lb := mul_le_mul_of_nonpos_left h3 hla.le
        have h6 := le_trans (le_max_left (la * lb) (la * ub))
          (le_max_left (max (la * lb) (la * ub)) (max (ua * lb) (ua * ub)))
        linarith

/-- Soundness of interval multiplication. -/
lemma mem_mulIv {x y : ℝ} {I J : Iv} (hx : memIv x I) (hy : memIv y J) :
    memIv (x * y) (mulIv I J) := by
  obtain ⟨h1, h2⟩ := hx
  obtain ⟨h3, h4⟩ := hy
  obtain ⟨hb1, hb2⟩ := mul_bounds h1 h2 h3 h4
  have hSc := Sc_pos
  constructor
  · show (((min (min (I.lo * J.lo) (I.lo * J.hi)) (min (I.hi * J.lo) (I.hi * J.hi))).ediv Sc : ℤ) : ℝ)
        ≤ x * y * (Sc : ℝ)
    have hd := (ediv_bounds (min (min (I.lo * J.lo) (I.lo * J.hi))
      (min (I.hi * J.lo) (I.hi * J.hi))) Sc Sc_posZ).1
    have hcast : ((min (min (I.lo * J.lo) (I.lo * J.hi)) (min (I.hi * J.lo) (I.hi * J.hi)) : ℤ) : ℝ)
        = min (min ((I.lo : ℝ) * (J.lo : ℝ)) ((I.lo : ℝ) * (J.hi : ℝ)))
            (min ((I.hi : ℝ) * (J.lo : ℝ)) ((I.hi : ℝ) * (J.hi : ℝ))) := by
      push_cast
      rfl
    rw [hcast] at hd
    have hfinal : (((min (min (I.lo * J.lo) (I.lo * J.hi)) (min (I.hi * J.lo) (I.hi * J.hi))).ediv Sc : ℤ) : ℝ) * (Sc : ℝ)
        ≤ (x * y * (Sc : ℝ)) * (Sc : ℝ) := by nlinarith [hd, hb1]
    exact (mul_le_mul_right hSc).mp hfinal
  · show x * y * (Sc : ℝ)
        ≤ ((cdiv (max (max (I.lo * J.lo) (I.lo * J.hi)) (max (I.hi * J.lo) (I.hi * J.hi))) Sc : ℤ) : ℝ)
    have hd := (cdiv_bounds (max (max (I.lo * J.lo) (I.lo * J.hi))
      (max (I.hi * J.lo) (I.hi * J.hi))) Sc Sc_posZ).1
    have hcast : ((max (max (I.lo * J.lo) (I.lo * J.hi)) (max (I.hi * J.lo) (I.hi * J.hi)) : ℤ) : ℝ)
        = max (max ((I.lo : ℝ) * (J.lo : ℝ)) ((I.lo : ℝ) * (J.hi : ℝ)))
            (max ((I.hi : ℝ) * (J.lo : ℝ)) ((I.hi : ℝ) * (J.hi : ℝ))) := by
      push_cast
      rfl
    rw [hcast] at hd
    have hfinal : (x * y * (Sc : ℝ)) * (Sc : ℝ)
        ≤ ((cdiv (max (max (I.lo * J.lo) (I.lo * J.hi)) (max (I.hi * J.lo) (I.hi * J.hi))) Sc : ℤ) : ℝ) * (Sc : ℝ) := by
      nlinarith [hd, hb2]
    exact (mul_le_mul_right hSc).mp hfinal

/-- Soundness of interval division by a positive integer. -/
lemma mem_divIv {y : ℝ} {I : Iv} (hy : memIv y I) (d : ℤ) (hd : 0 < d) :
    memIv (y / (d : ℝ)) (divIv I d) := by
  obtain ⟨h1, h2⟩ := hy
  have hdR : (0 : ℝ) < (d : ℝ) := by exact_mod_cast hd
  constructor
  · show ((I.lo.ediv d : ℤ) : ℝ) ≤ y / (d : ℝ) * (Sc : ℝ)
    have hb := (ediv_bounds I.lo d hd).1
    rw [show y / (d : ℝ) * (Sc : ℝ) = y * (Sc : ℝ) / (d : ℝ) by ring, le_div_iff₀ hdR]
    linarith
  · show y / (d : ℝ) * (Sc : ℝ) ≤ ((cdiv I.hi d : ℤ) : ℝ)
    have hb := (cdiv_bounds I.hi d hd).1
    rw [show y / (d : ℝ) * (Sc : ℝ) = y * (Sc : ℝ) / (d : ℝ) by ring, div_le_iff₀ hdR]
    linarith

/-- Soundness of interval multiplication by the step size 0.4. -/
lemma mem_mul04 {y : ℝ} {I : Iv} (hy : memIv y I) : memIv (0.4 * y) (mul04 I) := by
  obtain ⟨h1, h2⟩ := hy
  constructor
  · show (((2 * I.lo).ediv 5 : ℤ) : ℝ) ≤ 0.4 * y * (Sc : ℝ)
    have hb := (ediv_bounds (2 * I.lo) 5 (by norm_num)).1
    push_cast at hb
    nlinarith
  · show 0.4 * y * (Sc : ℝ) ≤ ((cdiv (2 * I.hi) 5 : ℤ) : ℝ)
    have hb := (cdiv_bounds (2 * I.hi) 5 (by norm_num)).1
    push_cast at hb
    nlinarith

/-- Soundness of widening: a real number within e / Sc of an enclosed point
lies in the widened interval. -/
lemma mem_widen {z p : ℝ} {I : Iv} {e : ℤ} (hp : memIv p I)
    (hz : |z - p| ≤ (e : ℝ) / (Sc : ℝ)) : memIv z (widen I e) := by
  obtain ⟨h1, h2⟩ := hp
  obtain ⟨ha, hb⟩ := abs_le.mp hz
  have hSc := Sc_pos
  have hcan : (e : ℝ) / (Sc : ℝ) * (Sc : ℝ) = (e : ℝ) := div_mul_cancel₀ _ (ne_of_gt hSc)
  have hb2 : (z - p) * (Sc : ℝ) ≤ (e : ℝ) := by
    have h := (mul_le_mul_right hSc).mpr hb
    rw [hcan] at h
    exact h
  have ha2 : -(e : ℝ) ≤ (z - p) * (Sc : ℝ) := by
    have h := (mul_le_mul_right hSc).mpr ha
    rw [neg_mul, hcan] at h
    exact h
  constructor
  · show ((I.lo - e : ℤ) : ℝ) ≤ z * (Sc : ℝ)
    push_cast
    nlinarith [ha2]
  · show z * (Sc : ℝ) ≤ ((I.hi + e : ℤ) : ℝ)
    push_cast
    nlinarith [hb2]

/-- Range facts for the argument of the Taylor enclosures. -/
lemma mem_x_bounds {x : ℝ} {T : Iv} (hm : memIv x T) (h0 : 0 ≤ T.lo)
    (h8 : T.hi ≤ 800000000000) : 0 ≤ x ∧ x ≤ 1 / 1250 := by
  constructor
  · have h := le_memIv hm h0
    simpa using h
  · have h := memIv_le hm h8
    rw [show ((800000000000 : ℤ) : ℝ) / (Sc : ℝ) = 1 / 1250 by norm_num [Sc]] at h
    exact h

/-- Soundness of the sine Taylor enclosure on small arguments. -/
lemma mem_sinT {x : ℝ} {T : Iv} (hm : memIv x T) (h0 : 0 ≤ T.lo)
    (h8 : T.hi ≤ 800000000000) : memIv (Real.sin x) (sinT T) := by
  obtain ⟨hx0, hx8⟩ := mem_x_bounds hm h0 h8
  have habs : |x| ≤ 1 := by
    rw [abs_le]
    constructor <;> linarith
  have hsb := Real.sin_bound habs
  have hxx := mem_mulIv hm hm
  have hxxx := mem_mulIv hxx hm
  have hdiv := mem_divIv hxxx 6 (by norm_num)
  have hsub := mem_subIv hm hdiv
  apply mem_widen hsub
  have habs4 : |x| ^ 4 * (5 / 96) ≤ ((25 : ℤ) : ℝ) / (Sc : ℝ) := by
    have h1 : |x| ^ 4 ≤ (1 / 1250 : ℝ) ^ 4 := by
      apply pow_le_pow_left₀ (abs_nonneg x)
      rw [abs_of_nonneg hx0]
      exact hx8
    rw [show ((25 : ℤ) : ℝ) / (Sc : ℝ) = 25 / 1000000000000000 by norm_num [Sc]]
    nlinarith [h1]
  have hshape : x - x ^ 3 / 6 = x - x * x * x / ((6 : ℤ) : ℝ) := by
    push_cast
    ring
  rw [hshape] at hsb
  exact le_trans hsb habs4

/-- Soundness of the cosine Taylor enclosure on small arguments. -/
lemma mem_cosT {x : ℝ} {T : Iv} (hm : memIv x T) (h0 : 0 ≤ T.lo)
    (h8 : T.hi ≤ 800000000000) : memIv (Real.cos x) (cosT T) := by
  obtain ⟨hx0, hx8⟩ := mem_x_bounds hm h0 h8
  have habs : |x| ≤ 1 := by
    rw [abs_le]
    constructor <;> linarith
  have hcb := Real.cos_bound habs
  have hxx := mem_mulIv hm hm
  have hdiv := mem_divIv hxx 2 (by norm_num)
  have hsub := mem_subIv mem_oneIv hdiv
  apply mem_widen hsub
  have habs4 : |x| ^ 4 * (5 / 96) ≤ ((25 : ℤ) : ℝ) / (Sc : ℝ) := by
    have h1 : |x| ^ 4 ≤ (1 / 1250 : ℝ) ^ 4 := by
      apply pow_le_pow_left₀ (abs_nonneg x)
      rw [abs_of_nonneg hx0]
      exact hx8
    rw [show ((25 : ℤ) : ℝ) / (Sc : ℝ) = 25 / 1000000000000000 by norm_num [Sc]]
    nlinarith [h1]
  have hshape : 1 - x ^ 2 / 2 = 1 - x * x / ((2 : ℤ) : ℝ) := by
    push_cast
    ring
  rw [hshape] at hcb
  exact le_trans hcb habs4

/-- Soundness of one double-angle step. -/
lemma mem_scD {x : ℝ} {p : Iv × Iv} (hs : memIv (Real.sin x) p.1)
    (hc : memIv (Real.cos x) p.2) :
    memIv (Real.sin (2 * x)) (scD p).1 ∧ memIv (Real.cos (2 * x)) (scD p).2 := by
  constructor
  · show memIv (Real.sin (2 * x)) (scl2 (mulIv p.1 p.2))
    rw [Real.sin_two_mul, mul_assoc]
    exact mem_scl2 (mem_mulIv hs hc)
  · show memIv (Real.cos (2 * x)) (subIv oneIv (scl2 (mulIv p.1 p.1)))
    have h2 : Real.cos (2 * x) = 1 - 2 * (Real.sin x * Real.sin x) := by
      have hc2 := Real.cos_two_mul x
      have hs2 := Real.sin_sq_add_cos_sq x
      linear_combination hc2 + 2 * hs2
    rw [h2]
    exact mem_subIv mem_oneIv (mem_scl2 (mem_mulIv hs hs))

/-- Soundness of iterated double-angle steps. -/
lemma mem_scD_iter (k : ℕ) : ∀ (x : ℝ) (p : Iv × Iv), memIv (Real.sin x) p.1 →
    memIv (Real.cos x) p.2 →
    memIv (Real.sin (2 ^ k * x)) (scD^[k] p).1 ∧
      memIv (Real.cos (2 ^ k * x)) (scD^[k] p).2 := by
  induction k with
  | zero =>
    intro x p hs hc
    simpa using ⟨hs, hc⟩
  | succ k ih =>
    intro x p hs hc
    have hd := mem_scD hs hc
    have hnext := ih (2 * x) (scD p) hd.1 hd.2
    rw [Function.iterate_succ_apply]
    rw [show (2 : ℝ) ^ (k + 1) * x = 2 ^ k * (2 * x) by ring]
    exact hnext

/-- Soundness of the point enclosures of sine and cosine. -/
lemma mem_sinCosP (q : ℤ) (hq0 : 0 ≤ q) (hq : q ≤ 3200000000000000) :
    memIv (Real.sin ((q : ℝ) / (Sc : ℝ))) (psin q) ∧
      memIv (Real.cos ((q : ℝ) / (Sc : ℝ))) (pcos q) := by
  have hS : (Sc : ℝ) ≠ 0 := ne_of_gt Sc_pos
  have hT : memIv ((q : ℝ) / (Sc : ℝ) / 4096) ⟨q.ediv 4096, q.ediv 4096 + 1⟩ := by
    have hmul : (q : ℝ) / (Sc : ℝ) / 4096 * (Sc : ℝ) = (q : ℝ) / 4096 := by
      field_simp
      ring
    constructor
    · show ((q.ediv 4096 : ℤ) : ℝ) ≤ (q : ℝ) / (Sc : ℝ) / 4096 * (Sc : ℝ)
      rw [hmul, le_div_iff₀ (by norm_num : (0 : ℝ) < 4096)]
      have hb := (ediv_bounds q 4096 (by norm_num)).1
      push_cast at hb
      linarith
    · show (q : ℝ) / (Sc : ℝ) / 4096 * (Sc : ℝ) ≤ ((q.ediv 4096 + 1 : ℤ) : ℝ)
      rw [hmul, div_le_iff₀ (by norm_num : (0 : ℝ) < 4096)]
      have hb := (ediv_bounds q 4096 (by norm_num)).2
      push_cast at hb ⊢
      linarith
  have h0 : (0 : ℤ) ≤ q.ediv 4096 := Int.ediv_nonneg hq0 (by norm_num)
  have h8 : q.ediv 4096 + 1 ≤ 800000000000 := by
    have hb := (ediv_bounds q 4096 (by norm_num)).1
    push_cast at hb
    have hqR : (q : ℝ) ≤ 3200000000000000 := by exact_mod_cast hq
    have hR : ((q.ediv 4096 : ℤ) : ℝ) ≤ 781250000000 := by linarith
    have hz : q.ediv 4096 ≤ 781250000000 := by exact_mod_cast hR
    linarith
  have hs := mem_sinT hT h0 h8
  have hc := mem_cosT hT h0 h8
  have hiter := mem_scD_iter 12 ((q : ℝ) / (Sc : ℝ) / 4096)
    (sinT ⟨q.ediv 4096, q.ediv 4096 + 1⟩, cosT ⟨q.ediv 4096, q.ediv 4096 + 1⟩) hs hc
  rw [show (2 : ℝ) ^ 12 * ((q : ℝ) / (Sc : ℝ) / 4096) = (q : ℝ) / (Sc : ℝ) by
    rw [show (2 : ℝ) ^ 12 = 4096 by norm_num]
    field_simp
    ring] at hiter
  exact hiter

/-- Range facts used by the interval sine and cosine. -/
lemma range_facts {x : ℝ} {X : Iv} (hm : memIv x X) (h0 : 0 ≤ X.lo)
    (h31 : X.hi ≤ 3141500000000000) :
    0 ≤ x ∧ x ≤ 3.1415 ∧ (X.lo : ℝ) / (Sc : ℝ) ≤ x ∧ x ≤ (X.hi : ℝ) / (Sc : ℝ) ∧
      0 ≤ (X.lo : ℝ) / (Sc : ℝ) ∧ (X.hi : ℝ) / (Sc : ℝ) ≤ 3.1415 ∧
      0 ≤ X.hi ∧ X.lo ≤ 3200000000000000 ∧ X.hi ≤ 3200000000000000 := by
  have hZ : X.lo ≤ X.hi := by
    have hR : (X.lo : ℝ) ≤ (X.hi : ℝ) := le_trans hm.1 hm.2
    exact_mod_cast hR
  have hx0 : 0 ≤ x := by
    have h := le_memIv hm h0
    simpa using h
  have hup : x ≤ 3.1415 := by
    have h := memIv_le hm h31
    rw [show ((3141500000000000 : ℤ) : ℝ) / (Sc : ℝ) = 3.1415 by norm_num [Sc]] at h
    exact h
  have hlo_x : (X.lo : ℝ) / (Sc : ℝ) ≤ x := le_memIv hm (le_refl X.lo)
  have hx_hi : x ≤ (X.hi : ℝ) / (Sc : ℝ) := memIv_le hm (le_refl X.hi)
  have hlon : 0 ≤ (X.lo : ℝ) / (Sc : ℝ) := by
    apply div_nonneg _ Sc_pos.le
    exact_mod_cast h0
  have hhiu : (X.hi : ℝ) / (Sc : ℝ) ≤ 3.1415 := by
    rw [div_le_iff₀ Sc_pos]
    have hR : (X.hi : ℝ) ≤ 3141500000000000 := by exact_mod_cast h31
    norm_num [Sc]
    linarith
  exact ⟨hx0, hup, hlo_x, hx_hi, hlon, hhiu, le_trans h0 hZ, by linarith [hZ], by linarith⟩

/-- Soundness of the interval cosine on the range from zero to 3.1415. -/
lemma mem_cosIv {x : ℝ} {X : Iv} (hm : memIv x X) (h0 : 0 ≤ X.lo)
    (h31 : X.hi ≤ 3141500000000000) : memIv (Real.cos x) (cosIv X) := by
  obtain ⟨hx0, hup, hlo_x, hx_hi, hlon, hhiu, hhi0, hlo32, hhi32⟩ := range_facts hm h0 h31
  have hpi6 := Real.pi_gt_d6
  have hxpi : x ≤ Real.pi := by linarith
  have hpl := mem_sinCosP X.lo h0 hlo32
  have hph := mem_sinCosP X.hi hhi0 hhi32
  have hcos_up : Real.cos x ≤ Real.cos ((X.lo : ℝ) / (Sc : ℝ)) :=
    Real.cos_le_cos_of_nonneg_of_le_pi hlon hxpi hlo_x
  have hcos_lo : Real.cos ((X.hi : ℝ) / (Sc : ℝ)) ≤ Real.cos x :=
    Real.cos_le_cos_of_nonneg_of_le_pi hx0 (by linarith) hx_hi
  constructor
  · show (((pcos X.hi).lo : ℤ) : ℝ) ≤ Real.cos x * (Sc : ℝ)
    have h := hph.2.1
    have h2 := (mul_le_mul_right Sc_pos).mpr hcos_lo
    linarith
  · show Real.cos x * (Sc : ℝ) ≤ (((pcos X.lo).hi : ℤ) : ℝ)
    have h := hpl.2.2
    have h2 := (mul_le_mul_right Sc_pos).mpr hcos_up
    linarith

/-- Soundness of the interval sine on the range from zero to 3.1415. -/
lemma mem_sinIv {x : ℝ} {X : Iv} (hm : memIv x X) (h0 : 0 ≤ X.lo)
    (h31 : X.hi ≤ 3141500000000000) : memIv (Real.sin x) (sinIv X) := by
  obtain ⟨hx0, hup, hlo_x, hx_hi, hlon, hhiu, hhi0, hlo32, hhi32⟩ := range_facts hm h0 h31
  have hpi6 := Real.pi_gt_d6
  have hpi6u := Real.pi_lt_d6
  have hpl := mem_sinCosP X.lo h0 hlo32
  have hph := mem_sinCosP X.hi hhi0 hhi32
  constructor
  · show ((min (psin X.lo).lo (psin X.hi).lo : ℤ) : ℝ) ≤ Real.sin x * (Sc : ℝ)
    have hcast : ((min (psin X.lo).lo (psin X.hi).lo : ℤ) : ℝ) =
        min (((psin X.lo).lo : ℤ) : ℝ) (((psin X.hi).lo : ℤ) : ℝ) := by
      push_cast
      rfl
    rw [hcast]
    rcases le_or_lt x (Real.pi / 2) with hx2 | hx2
    · have hmono : Real.sin ((X.lo : ℝ) / (Sc : ℝ)) ≤ Real.sin x :=
        Real.sin_le_sin_of_le_of_le_pi_div_two (by linarith [Real.pi_pos]) hx2 hlo_x
      have h := hpl.1.1
      have h2 := (mul_le_mul_right Sc_pos).mpr hmono
      exact le_trans (min_le_left _ _) (by linarith)
    · have hs1 : Real.sin x = Real.cos (x - Real.pi / 2) := (Real.cos_sub_pi_div_two x).symm
      have hs2 : Real.sin ((X.hi : ℝ) / (Sc : ℝ)) =
          Real.cos ((X.hi : ℝ) / (Sc : ℝ) - Real.pi / 2) := (Real.cos_sub_pi_div_two _).symm
      have hmono : Real.cos ((X.hi : ℝ) / (Sc : ℝ) - Real.pi / 2) ≤
          Real.cos (x - Real.pi / 2) := by
        apply Real.cos_le_cos_of_nonneg_of_le_pi
        · linarith
        · linarith [Real.pi_pos]
        · linarith
      have hmono2 : Real.sin ((X.hi : ℝ) / (Sc : ℝ)) ≤ Real.sin x := by
        rw [hs1, hs2]
        exact hmono
      have h := hph.1.1
      have h2 := (mul_le_mul_right Sc_pos).mpr hmono2
      exact le_trans (min_le_right _ _) (by linarith)
  · show Real.sin x * (Sc : ℝ) ≤
      ((if X.hi ≤ 1570796000000000 then (psin X.hi).hi
        else if 1570796500000000 ≤ X.lo then (psin X.lo).hi else Sc : ℤ) : ℝ)
    split_ifs with hif1 hif2
    · have hhalf : (X.hi : ℝ) / (Sc : ℝ) ≤ Real.pi / 2 := by
        have h1 : (X.hi : ℝ) ≤ 1570796000000000 := by exact_mod_cast hif1
        rw [div_le_iff₀ Sc_pos]
        norm_num [Sc]
        linarith
      have hmono : Real.sin x ≤ Real.sin ((X.hi : ℝ) / (Sc : ℝ)) :=
        Real.sin_le_sin_of_le_of_le_pi_div_two (by linarith [Real.pi_pos]) hhalf hx_hi
      have h := hph.1.2
      have h2 := (mul_le_mul_right Sc_pos).mpr hmono
      linarith
    · have hhalf2 : Real.pi / 2 ≤ (X.lo : ℝ) / (Sc : ℝ) := by
        have h1 : (1570796500000000 : ℝ) ≤ (X.lo : ℝ) := by exact_mod_cast hif2
        rw [le_div_iff₀ Sc_pos]
        norm_num [Sc]
        linarith
      have hs1 : Real.sin x = Real.cos (x - Real.pi / 2) := (Real.cos_sub_pi_div_two x).symm
      have hs2 : Real.sin ((X.lo : ℝ) / (Sc : ℝ)) =
          Real.cos ((X.lo : ℝ) / (Sc : ℝ) - Real.pi / 2) := (Real.cos_sub_pi_div_two _).symm
      have hmono : Real.cos (x - Real.pi / 2) ≤
          Real.cos ((X.lo : ℝ) / (Sc : ℝ) - Real.pi / 2) := by
        apply Real.cos_le_cos_of_nonneg_of_le_pi
        · linarith
        · linarith [Real.pi_pos]
        · linarith
      have hmono2 : Real.sin x ≤ Real.sin ((X.lo : ℝ) / (Sc : ℝ)) := by
        rw [hs1, hs2]
        exact hmono
      have h := hpl.1.2
      have h2 := (mul_le_mul_right Sc_pos).mpr hmono2
      linarith
    · have h := Real.sin_le_one x
      have h2 : Real.sin x * (Sc : ℝ) ≤ 1 * (Sc : ℝ) := (mul_le_mul_right Sc_pos).mpr h
      rw [one_mul] at h2
      exact h2

/-- Soundness of one interval step of the gradient-descent update. -/
lemma stepIv_sound {a b : ℝ} {P : Iv × Iv} (ha : memIv a P.1) (hb : memIv b P.2)
    (hok : okIv P = true) :
    memIv (a + 0.4 * (Real.sin a * Real.cos b)) (stepIv P).1 ∧
      memIv (b + 0.4 * (Real.cos a * Real.sin b)) (stepIv P).2 := by
  have hok4 : (0 ≤ P.1.lo ∧ P.1.hi ≤ 3141500000000000) ∧
      0 ≤ P.2.lo ∧ P.2.hi ≤ 3141500000000000 := by
    simp only [okIv, Bool.and_eq_true, decide_eq_true_eq] at hok
    tauto
  obtain ⟨⟨h1, h2⟩, h3, h4⟩ := hok4
  have hsa := mem_sinIv ha h1 h2
  have hca := mem_cosIv ha h1 h2
  have hsb := mem_sinIv hb h3 h4
  have hcb := mem_cosIv hb h3 h4
  exact ⟨mem_addIv ha (mem_mul04 (mem_mulIv hsa hcb)),
    mem_addIv hb (mem_mul04 (mem_mulIv hca hsb))⟩

/-- The interval trajectory encloses the real trajectory as long as the
validity checks pass. -/
lemma iter_sound (n : ℕ) : ∀ (P : Iv × Iv) (a b : ℝ), okSteps n P = true →
    memIv a P.1 → memIv b P.2 →
    memIv ((rstep^[n] (a, b)).1) (stepIv^[n] P).1 ∧
      memIv ((rstep^[n] (a, b)).2) (stepIv^[n] P).2 := by
  induction n with
  | zero =>
    intro P a b _ ha hb
    simpa using ⟨ha, hb⟩
  | succ n ih =>
    intro P a b hok ha hb
    have hok2 : okIv P = true ∧ okSteps n (stepIv P) = true := by
      simp only [okSteps, Bool.and_eq_true] at hok
      exact hok
    have hs := stepIv_sound ha hb hok2.1
    have hnext := ih (stepIv P) (rstep (a, b)).1 (rstep (a, b)).2 hok2.2 hs.1 hs.2
    rw [Function.iterate_succ_apply, Function.iterate_succ_apply]
    simpa using hnext

set_option maxRecDepth 40000 in
set_option maxHeartbeats 4000000 in
/-- The interval trajectory stays in range for the first 30 steps. -/
lemma phase1_ok : okSteps 30 initIv = true := by decide

set_option maxRecDepth 40000 in
set_option maxHeartbeats 4000000 in
/-- The numeric check on the interval state after 30 steps passes. -/
lemma endCheck_true : endCheck = true := by decide

/-- After 30 steps of the closed-form update from (0.011, 0.012), the first
angle lies in (0, 0.025] and the second in [3.11, 3.1415]. -/
lemma phase1_real :
    0 < (rstep^[30] ((0.011 : ℝ), (0.012 : ℝ))).1 ∧
      (rstep^[30] ((0.011 : ℝ), (0.012 : ℝ))).1 ≤ 0.025 ∧
      3.11 ≤ (rstep^[30] ((0.011 : ℝ), (0.012 : ℝ))).2 ∧
      (rstep^[30] ((0.011 : ℝ), (0.012 : ℝ))).2 ≤ 3.1415 := by
  have hma : memIv (0.011 : ℝ) initIv.1 := by
    constructor <;> norm_num [initIv, Sc, memIv]
  have hmb : memIv (0.012 : ℝ) initIv.2 := by
    constructor <;> norm_num [initIv, Sc, memIv]
  have h := iter_sound 30 initIv 0.011 0.012 phase1_ok hma hmb
  have hend := endCheck_true
  unfold endCheck at hend
  simp only [Bool.and_eq_true, decide_eq_true_eq] at hend
  obtain ⟨⟨⟨e1, e2⟩, e3⟩, e4⟩ := hend
  refine ⟨?_, ?_, ?_, ?_⟩
  · have hlow := le_memIv h.1 e1
    have hpos : (0 : ℝ) < ((1 : ℤ) : ℝ) / (Sc : ℝ) := by norm_num [Sc]
    linarith
  · have hup := memIv_le h.1 e2
    rw [show ((25000000000000 : ℤ) : ℝ) / (Sc : ℝ) = 0.025 by norm_num [Sc]] at hup
    exact hup
  · have hlow := le_memIv h.2 e3
    rw [show ((3110000000000000 : ℤ) : ℝ) / (Sc : ℝ) = 3.11 by norm_num [Sc]] at hlow
    exact hlow
  · have hup := memIv_le h.2 e4
    rw [show ((3141500000000000 : ℤ) : ℝ) / (Sc : ℝ) = 3.1415 by norm_num [Sc]] at hup
    exact hup

/-- A lower bound on the sine of a small positive argument. -/
lemma small_sin_low {x : ℝ} (hx0 : 0 < x) (hx : x ≤ 0.0316) : 0.9998 * x ≤ Real.sin x := by
  have habs : |x| ≤ 1 := by
    rw [abs_le]
    constructor <;> linarith
  have hpair := abs_le.mp (Real.sin_bound habs)
  have habs4 : |x| ^ 4 = x ^ 4 := by rw [abs_of_nonneg hx0.le]
  rw [habs4] at hpair
  have h2 : x ^ 2 ≤ 0.00099856 := by nlinarith [sq_nonneg x]
  have h3 : x ^ 3 ≤ 0.00099856 * x := by nlinarith [sq_nonneg x, h2]
  have h4 : x ^ 4 ≤ 0.0000315545 * x := by nlinarith [h3, sq_nonneg x]
  linarith [hpair.1]

/-- A lower bound on the cosine of a small argument. -/
lemma small_cos_low {x : ℝ} (hx0 : 0 < x) (hx : x ≤ 0.0316) : 0.999 ≤ Real.cos x := by
  have habs : |x| ≤ 1 := by
    rw [abs_le]
    constructor <;> linarith
  have hpair := abs_le.mp (Real.cos_bound habs)
  have habs4 : |x| ^ 4 = x ^ 4 := by rw [abs_of_nonneg hx0.le]
  rw [habs4] at hpair
  have h2 : x ^ 2 ≤ 0.00099856 := by nlinarith [sq_nonneg x]
  have h4 : x ^ 4 ≤ 0.000001 := by nlinarith [h2, sq_nonneg x, sq_nonneg (x ^ 2)]
  linarith [hpair.1]

/-- In the contraction region (first angle at most 0.025, second in
[3.11, pi)), one update shrinks the first angle and the distance of the
second angle from pi by a factor 0.61 while preserving the region. -/
lemma tail_step {a b : ℝ} (ha0 : 0 < a) (ha : a ≤ 0.025) (hb : 3.11 ≤ b)
    (hbp : b < Real.pi) :
    0 < a + 0.4 * (Real.sin a * Real.cos b) ∧
      a + 0.4 * (Real.sin a * Real.cos b) ≤ 0.61 * a ∧
      3.11 ≤ b + 0.4 * (Real.cos a * Real.sin b) ∧
      b + 0.4 * (Real.cos a * Real.sin b) < Real.pi ∧
      Real.pi - (b + 0.4 * (Real.cos a * Real.sin b)) ≤ 0.61 * (Real.pi - b) := by
  have hpi_lt := Real.pi_lt_d6
  have hu0 : 0 < Real.pi - b := by linarith
  have huU : Real.pi - b ≤ 0.0316 := by linarith
  set u := Real.pi - b with hu
  have hbu : b = Real.pi - u := by rw [hu]; ring
  have hcosb : Real.cos b = -Real.cos u := by rw [hbu, Real.cos_pi_sub]
  have hsinb : Real.sin b = Real.sin u := by rw [hbu, Real.sin_pi_sub]
  have hsina_low : 0.9998 * a ≤ Real.sin a := small_sin_low ha0 (by linarith)
  have hsina_le : Real.sin a ≤ a := sin_le_self a ha0.le
  have hsina_pos : 0 < Real.sin a := by linarith
  have hcosa_low : 0.999 ≤ Real.cos a := small_cos_low ha0 (by linarith)
  have hcosa_le : Real.cos a ≤ 1 := Real.cos_le_one a
  have hsinu_low : 0.9998 * u ≤ Real.sin u := small_sin_low hu0 huU
  have hsinu_le : Real.sin u ≤ u := sin_le_self u hu0.le
  have hsinu_pos : 0 < Real.sin u := by linarith
  have hcosu_low : 0.999 ≤ Real.cos u := small_cos_low hu0 huU
  have hcosu_le : Real.cos u ≤ 1 := Real.cos_le_one u
  have hprod1 : 0.9988 * a ≤ Real.sin a * Real.cos u := by
    have h1 : 0.9998 * a * 0.999 ≤ Real.sin a * Real.cos u :=
      mul_le_mul hsina_low hcosu_low (by norm_num) hsina_pos.le
    linarith
  have hprod2 : 0.9988 * u ≤ Real.cos a * Real.sin u := by
    have h1 : 0.999 * (0.9998 * u) ≤ Real.cos a * Real.sin u :=
      mul_le_mul hcosa_low hsinu_low (by linarith) (by linarith)
    linarith
  have hprod1_le : Real.sin a * Real.cos u ≤ a := by
    have h1 : Real.sin a * Real.cos u ≤ Real.sin a * 1 :=
      mul_le_mul_of_nonneg_left hcosu_le hsina_pos.le
    linarith
  have hprod2_le : Real.cos a * Real.sin u ≤ u := by
    have h1 : Real.cos a * Real.sin u ≤ 1 * Real.sin u :=
      mul_le_mul_of_nonneg_right hcosa_le hsinu_pos.le
    linarith
  refine ⟨?_, ?_, ?_, ?_, ?_⟩
  · rw [hcosb]
    linarith [hprod1_le, ha0]
  · rw [hcosb]
    linarith [hprod1, ha0]
  · rw [hsinb]
    linarith [hprod2, hu0]
  · rw [hsinb]
    linarith [hprod2_le, hu0]
  · rw [hsinb]
    linarith [hprod2, hu0]

/-- First component of the closed-form update. -/
lemma rstep_fst (p : ℝ × ℝ) :
    (rstep p).1 = p.1 + 0.4 * (Real.sin p.1 * Real.cos p.2) := rfl

/-- Second component of the closed-form update. -/
lemma rstep_snd (p : ℝ × ℝ) :
    (rstep p).2 = p.2 + 0.4 * (Real.cos p.1 * Real.sin p.2) := rfl

/-- The optimizer update with step size 0.4 is the closed-form update. -/
lemma optStep_is_rstep : optStep 0.4 = rstep :=
  funext fun p => optStep_eq p

/-- The trajectory of the optimization is the iteration of the closed-form
update from (0.011, 0.012). -/
lemma paramsAfter_eq_rstep (n : ℕ) :
    paramsAfter n = rstep^[n] ((0.011 : ℝ), (0.012 : ℝ)) := by
  rw [paramsAfter, optStep_is_rstep]
  rfl

/-- From step 30 on, the first angle and the distance of the second angle
from pi decay geometrically with ratio 0.61. -/
lemma tail_all (k : ℕ) :
    0 < (rstep^[30 + k] ((0.011 : ℝ), (0.012 : ℝ))).1 ∧
      (rstep^[30 + k] ((0.011 : ℝ), (0.012 : ℝ))).1 ≤ 0.025 * 0.61 ^ k ∧
      3.11 ≤ (rstep^[30 + k] ((0.011 : ℝ), (0.012 : ℝ))).2 ∧
      (rstep^[30 + k] ((0.011 : ℝ), (0.012 : ℝ))).2 < Real.pi ∧
      Real.pi - (rstep^[30 + k] ((0.011 : ℝ), (0.012 : ℝ))).2 ≤ 0.0316 * 0.61 ^ k := by
  induction k with
  | zero =>
    obtain ⟨h1, h2, h3, h4⟩ := phase1_real
    have hgt := Real.pi_gt_d6
    have hlt := Real.pi_lt_d6
    rw [Nat.add_zero]
    refine ⟨h1, ?_, h3, by linarith, by linarith⟩
    simpa using h2
  | succ k ih =>
    obtain ⟨h1, h2, h3, h4, h5⟩ := ih
    have hpow1 : (0.61 : ℝ) ^ k ≤ 1 := pow_le_one₀ (by norm_num) (by norm_num)
    have hpow0 : (0 : ℝ) ≤ (0.61 : ℝ) ^ k := pow_nonneg (by norm_num) k
    have hstep := tail_step h1 (by nlinarith) h3 h4
    rw [show 30 + (k + 1) = (30 + k) + 1 by ring, Function.iterate_succ_apply']
    have hps : (0.61 : ℝ) ^ (k + 1) = 0.61 ^ k * 0.61 := pow_succ 0.61 k
    refine ⟨hstep.1, ?_, hstep.2.2.1, hstep.2.2.2.1, ?_⟩
    · rw [rstep_fst]
      have hc := hstep.2.1
      linarith [hc, h2, hps]
    · rw [rstep_snd]
      have hc := hstep.2.2.2.2
      linarith [hc, h5, hps]

set_option maxHeartbeats 2000000 in
/-- C5: after the 100 optimizer updates from (0.011, 0.012) with step size
0.4, the cost is strictly below its initial value and the gradient of the
cost at the final parameters has squared magnitude below (10^-6)^2 — the
parameters have reached a near-stationary point. -/
theorem descent_converges :
    costFn (paramsAfter 100) < costFn init_params ∧
      (gradCost (paramsAfter 100)).1 ^ 2 + (gradCost (paramsAfter 100)).2 ^ 2 <
        (1 / 1000000 : ℝ) ^ 2 := by
  refine ⟨cost_100_lt, ?_⟩
  have ht := tail_all 70
  rw [show 30 + 70 = 100 from rfl] at ht
  obtain ⟨h1, h2, h3, h4, h5⟩ := ht
  rw [gradCost_eq, paramsAfter_eq_rstep 100]
  set a := (rstep^[100] ((0.011 : ℝ), (0.012 : ℝ))).1 with hadef
  set b := (rstep^[100] ((0.011 : ℝ), (0.012 : ℝ))).2 with hbdef
  show (-(Real.sin a * Real.cos b)) ^ 2 + (-(Real.cos a * Real.sin b)) ^ 2 < _
  have hpi_gt := Real.pi_gt_d6
  have hsa0 : 0 ≤ Real.sin a := Real.sin_nonneg_of_nonneg_of_le_pi h1.le (by linarith)
  have hsa : Real.sin a ≤ a := sin_le_self a h1.le
  have hsb0 : 0 ≤ Real.sin b := Real.sin_nonneg_of_nonneg_of_le_pi (by linarith) h4.le
  have hsb : Real.sin b ≤ Real.pi - b := by
    have h := Real.sin_pi_sub b
    have h2b : Real.sin (Real.pi - b) ≤ Real.pi - b := sin_le_self _ (by linarith)
    linarith
  have q1 : Real.sin a ^ 2 ≤ a ^ 2 := pow_le_pow_left₀ hsa0 hsa 2
  have q2 : Real.cos b ^ 2 ≤ 1 := Real.cos_sq_le_one b
  have q3 : Real.sin b ^ 2 ≤ (Real.pi - b) ^ 2 := pow_le_pow_left₀ hsb0 hsb 2
  have q4 : Real.cos a ^ 2 ≤ 1 := Real.cos_sq_le_one a
  have r1 : Real.sin a ^ 2 * Real.cos b ^ 2 ≤ a ^ 2 * 1 :=
    mul_le_mul q1 q2 (sq_nonneg _) (sq_nonneg _)
  have r2 : Real.cos a ^ 2 * Real.sin b ^ 2 ≤ 1 * (Real.pi - b) ^ 2 :=
    mul_le_mul q4 q3 (sq_nonneg _) (by norm_num)
  have hpow : (0.61 : ℝ) ^ 70 ≤ 0.0000001 := by norm_num
  have ht0 : (0 : ℝ) ≤ (0.61 : ℝ) ^ 70 := pow_nonneg (by norm_num) 70
  have ht2 : ((0.61 : ℝ) ^ 70) ^ 2 ≤ 0.00000000000001 := by nlinarith [hpow, ht0]
  have qa : a ^ 2 ≤ (0.025 * 0.61 ^ 70 : ℝ) ^ 2 := pow_le_pow_left₀ h1.le h2 2
  have qu : (Real.pi - b) ^ 2 ≤ (0.0316 * 0.61 ^ 70 : ℝ) ^ 2 :=
    pow_le_pow_left₀ (by linarith) h5 2
  have ra : a ^ 2 ≤ 0.000625 * 0.00000000000001 := by nlinarith [qa, ht2, ht0]
  have ru : (Real.pi - b) ^ 2 ≤ 0.00099856 * 0.00000000000001 := by nlinarith [qu, ht2, ht0]
  nlinarith [r1, r2, ra, ru]

/-- Witness for C7: concrete device states, a concrete input and the script's
run. -/
theorem deterministic_witness :
    (runCircuitOn ket0 [0.54, 0.12]).1 = circuit [0.54, 0.12] ∧
      (runCircuitOn ket0 [0.54, 0.12]).1 = (runCircuitOn (RX 1 ket0) [0.54, 0.12]).1 ∧
      scriptOutput = scriptOutput :=
  deterministic ket0 (RX 1 ket0) [0.54, 0.12] scriptOutput scriptOutput
    ScriptRun.run ScriptRun.run

end QubitRotation
